import Mathlib

/-!
Verification development for the sage wallet-synchronization core and peer
client. The definitions below are a shallow embedding of:

* `crates/sage-wallet/src/sync_manager/wallet_sync.rs` (`sync_wallet`,
  `sync_coin_ids`, `sync_puzzle_hashes`, `incremental_sync`),
* `crates/sage-client/src/peer.rs` (`request_raw`, `handle_inbound_messages`,
  `PeerInner::drop`),
* `crates/sage/src/endpoints/wallet_connect.rs` (`filter_unlocked_coins`).

External collaborators (the transactional wallet database, the BLS key
derivation library, the network peer, the tokio channels) are modelled
explicitly; their modelling choices are recorded in the doc comment of each
definition. Machine integers (`u32` indices, `u64` amounts) are modelled as
`Nat`; where a claim's statement depends on the `u32` domain it carries the
corresponding bound as a hypothesis.
-/

/-- 32-byte values (coin ids, puzzle hashes, header hashes) are opaque
identifiers to this code; they are modelled as natural numbers. -/
abbrev Bytes32 := Nat

/-- A coin: `{parent_coin_info, puzzle_hash, amount}` (chia `Coin`). -/
structure Coin where
  parent_coin_info : Bytes32
  puzzle_hash : Bytes32
  amount : Nat
deriving DecidableEq, Repr

/-- Modelled from the spec: `coin.coin_id()` is the 32-byte hash of the coin's
parent id, puzzle hash and amount (an external cryptographic primitive). It is
modelled as an injective pairing of the three fields, since the code treats the
id as an opaque key. -/
def Coin.coinId (c : Coin) : Bytes32 :=
  Nat.pair c.parent_coin_info (Nat.pair c.puzzle_hash c.amount)

/-- A coin state as pushed by the peer: the coin together with its optional
created and spent heights (chia `CoinState`). -/
structure CoinStateR where
  coin : Coin
  created_height : Option Nat
  spent_height : Option Nat
deriving DecidableEq, Repr

/-- Progress events emitted on the sync event channel (`SyncEvent`). Only the
two variants produced by `wallet_sync.rs` are modelled. -/
inductive SyncEvent where
  | coinsUpdated (coin_states : List CoinStateR)
  | derivationIndex (next_index : Nat)
deriving DecidableEq, Repr

/-- A row of the derivations table: keyed by `(index, hardened)`, holding the
synthetic key and the p2 puzzle hash. -/
structure DerivationRow where
  index : Nat
  hardened : Bool
  syntheticKey : Nat
  puzzleHash : Bytes32
deriving DecidableEq, Repr

/-- Modelled from the spec: the wallet database tables touched by the sync
engine — the coin-state table keyed by coin id, the puzzle records keyed by
coin id (deleted when a coin is spent), the derivations table and the peak
row. The same type stands for a database snapshot and for the staged state of
an open transaction: a transaction begins as a copy of the snapshot, the
staged copy becomes the snapshot exactly at `commit`. -/
structure WalletDb where
  coinRows : List (Bytes32 × CoinStateR)
  puzzles : List Bytes32
  derivations : List DerivationRow
  peak : Option (Nat × Bytes32)
deriving DecidableEq, Repr

/-- The observable world threaded through the sync engine: the committed
database plus the sequence of progress events emitted so far on the sync
channel (event delivery is best effort in the code — `send(..).await.ok()` —
so the model records the emissions themselves). -/
structure World where
  db : WalletDb
  events : List SyncEvent
deriving DecidableEq, Repr

/-- The external BLS/puzzle primitives used by the derivation frontier:
`derive_unhardened`, `derive_synthetic` and `StandardArgs::curry_tree_hash`.
They are pure functions of their inputs and otherwise opaque to the code under
verification, so they are a parameter of the embedding. -/
structure CryptoModel where
  deriveUnhardened : Nat → Nat → Nat
  deriveSynthetic : Nat → Nat
  curryTreeHash : Nat → Bytes32

/-- Errors surfaced to the sync engine (`WalletError`): database errors from
the persistence collaborator and peer-side errors (rejections, timeouts). -/
inductive SyncErr where
  | database
  | peer
deriving DecidableEq, Repr

/-- One page of a paginated puzzle-state response
(`RespondPuzzleState`-shaped): coin states, the response cursor
`(height, header_hash)` and the `is_finished` flag. -/
structure PuzzlePage where
  coinStates : List CoinStateR
  height : Nat
  headerHash : Bytes32
  isFinished : Bool
deriving DecidableEq, Repr

/-- Modelled from the spec: the behaviour of the external collaborators during
one `sync_wallet` run — which fallible database operations fail, the results
of the read-only database queries `derivation_index(false)` and
`max_used_derivation_index(false)` (arbitrary functions of the staged
transaction state at the time of the read), the unspent NFT/DID/CAT coin ids,
the peer's responses (`subscribe_coins` per chunk, puzzle-state pages per
request, timeouts folded into `SyncErr.peer`), and the shared `PeerState`
peak for this peer's address. -/
structure SyncOracle where
  upsertFails : CoinStateR → Bool
  deletePuzzleFails : Bytes32 → Bool
  insertDerivationFails : Nat → Bool
  commitFails : Bool
  insertPeakFails : Bool
  derivationIndexOf : WalletDb → Nat
  maxUsedOf : WalletDb → Option Nat
  coinIds : List Bytes32
  subscribeCoins : Nat → Except SyncErr (List CoinStateR)
  pages : Nat → Except SyncErr PuzzlePage
  peakOf : Option (Nat × Bytes32)

/-- Modelled from the spec: `upsert_coin` inserts or replaces the coin row
keyed by the coin id (`wallet_sync.rs` line 232 calls it on every received
coin state inside the open transaction). Failure is decided by the oracle. -/
def upsert_coin (o : SyncOracle) (tx : WalletDb) (cs : CoinStateR) :
    Except SyncErr WalletDb :=
  if o.upsertFails cs then .error .database
  else
    .ok { tx with
      coinRows :=
        if tx.coinRows.any (fun p => p.1 == cs.coin.coinId) then
          tx.coinRows.map (fun p => if p.1 == cs.coin.coinId then (p.1, cs) else p)
        else tx.coinRows ++ [(cs.coin.coinId, cs)] }

/-- Modelled from the spec: `delete_puzzle` removes the puzzle record of the
given coin id (`wallet_sync.rs` line 236, called when the coin state carries a
`spent_height`). Failure is decided by the oracle. -/
def delete_puzzle (o : SyncOracle) (tx : WalletDb) (coinId : Bytes32) :
    Except SyncErr WalletDb :=
  if o.deletePuzzleFails coinId then .error .database
  else .ok { tx with puzzles := tx.puzzles.filter (fun c => c != coinId) }

/-- `tx.insert_derivation(p2_puzzle_hash, index, hardened, synthetic_key)`:
appends one row to the derivations table. Failure is decided by the oracle. -/
def insert_derivation (o : SyncOracle) (tx : WalletDb) (row : DerivationRow) :
    Except SyncErr WalletDb :=
  if o.insertDerivationFails row.index then .error .database
  else .ok { tx with derivations := tx.derivations ++ [row] }

/-- Inserts a list of derivation rows one by one, stopping at the first
failure (the `for` loops over derivations in `wallet_sync.rs` lines 95-98 and,
via `insert_unhardened_derivations`, line 260). -/
def insertDerivList (o : SyncOracle) (tx : WalletDb) :
    List DerivationRow → Except SyncErr WalletDb
  | [] => .ok tx
  | row :: rest =>
    match insert_derivation o tx row with
    | .error e => .error e
    | .ok tx => insertDerivList o tx rest

/-- The unhardened derivation row at `index`:
`synthetic_key = intermediate_pk.derive_unhardened(index).derive_synthetic()`,
`puzzle_hash = StandardArgs::curry_tree_hash(synthetic_key)`, `hardened =
false` (`wallet_sync.rs` lines 78-81). -/
def derivRow (C : CryptoModel) (pk index : Nat) : DerivationRow :=
  let syntheticKey := C.deriveSynthetic (C.deriveUnhardened pk index)
  { index := index, hardened := false, syntheticKey := syntheticKey,
    puzzleHash := C.curryTreeHash syntheticKey }

/-- Modelled from the spec: `wallet.insert_unhardened_derivations(&mut tx,
lo..hi)` materializes the unhardened derivations for the index range
`[lo, hi)` inside the open transaction (`wallet_sync.rs` lines 259-261). -/
def insert_unhardened_derivations (C : CryptoModel) (o : SyncOracle) (pk : Nat)
    (tx : WalletDb) (lo hi : Nat) : Except SyncErr WalletDb :=
  insertDerivList o tx ((List.range' lo (hi - lo)).map (derivRow C pk))

/-- The coin-upsert loop of `incremental_sync` (`wallet_sync.rs` lines
231-239): for each coin state, upsert the coin row and, if the coin is spent,
delete its puzzle record, all on the staged transaction. -/
def upsertLoop (o : SyncOracle) (tx : WalletDb) :
    List CoinStateR → Except SyncErr WalletDb
  | [] => .ok tx
  | cs :: rest =>
    match upsert_coin o tx cs with
    | .error e => .error e
    | .ok tx =>
      match (if cs.spent_height.isSome then delete_puzzle o tx cs.coin.coinId
             else .ok tx) with
      | .error e => .error e
      | .ok tx => upsertLoop o tx rest

/-- The derivation loop of `incremental_sync` (`wallet_sync.rs` lines
258-265): `while next_index < max_index + 500`, insert the unhardened
derivations `[next_index, next_index + 500)` and advance `next_index` by 500.
Returns the staged transaction, the final `next_index` and the `derived`
flag (whether the body ran at least once). -/
def deriveLoop (C : CryptoModel) (o : SyncOracle) (pk : Nat) (tx : WalletDb)
    (nextIndex maxIndex : Nat) : Except SyncErr (WalletDb × Nat × Bool) :=
  if nextIndex < maxIndex + 500 then
    (insert_unhardened_derivations C o pk tx nextIndex (nextIndex + 500)).bind fun tx =>
      (deriveLoop C o pk tx (nextIndex + 500) maxIndex).map fun r => (r.1, r.2.1, true)
  else .ok (tx, nextIndex, false)
termination_by maxIndex + 500 - nextIndex
decreasing_by omega

/-- `incremental_sync(wallet, coin_states, derive_automatically, sync_sender)`
(`wallet_sync.rs` lines 219-283). One transaction is opened on the committed
database; all coin upserts, spent-coin puzzle deletions and (when
`derive_automatically` is set) derivation insertions run on the staged copy;
`next_index` is read before the `derive_automatically` branch and
`max_index = max_used.map_or(0, |i| i + 1)` inside it; the staged copy is
installed at `commit`; only then are the `CoinsUpdated` event and — iff the
derivation loop ran — the `DerivationIndex{next_index}` event emitted. Any
failure leaves the world exactly as it was (the transaction is dropped,
rolled back, and the error is returned). -/
def incremental_sync (C : CryptoModel) (o : SyncOracle) (pk : Nat) (w : World)
    (coin_states : List CoinStateR) (derive_automatically : Bool) :
    World × Option SyncErr :=
  let tx := w.db
  match upsertLoop o tx coin_states with
  | .error e => (w, some e)
  | .ok tx =>
    let nextIndex := o.derivationIndexOf tx
    let step : Except SyncErr (WalletDb × Nat × Bool) :=
      if derive_automatically then
        let maxIndex := (o.maxUsedOf tx).elim 0 (fun i => i + 1)
        deriveLoop C o pk tx nextIndex maxIndex
      else .ok (tx, nextIndex, false)
    match step with
    | .error e => (w, some e)
    | .ok (tx, nextIndex, derived) =>
      if o.commitFails then (w, some .database)
      else
        ({ db := tx,
           events := (w.events ++ [SyncEvent.coinsUpdated coin_states]) ++
             (if derived then [SyncEvent.derivationIndex nextIndex] else []) },
         none)

/-- The chunk loop of `sync_coin_ids` (`wallet_sync.rs` lines 143-165): for
the `i`-th chunk of 10000 coin ids, subscribe (the oracle answers or fails —
a timeout or peer error), and apply any non-empty response through
`incremental_sync` with `derive_automatically = true`. The inter-chunk 500 ms
pacing sleep has no observable effect in this model. -/
def sync_coin_ids_go (C : CryptoModel) (o : SyncOracle) (pk : Nat) (w : World)
    (i : Nat) : List (List Bytes32) → World × Option SyncErr
  | [] => (w, none)
  | _chunk :: rest =>
    match o.subscribeCoins i with
    | .error e => (w, some e)
    | .ok coin_states =>
      if coin_states.isEmpty then sync_coin_ids_go C o pk w (i + 1) rest
      else
        match incremental_sync C o pk w coin_states true with
        | (w, none) => sync_coin_ids_go C o pk w (i + 1) rest
        | (w, some e) => (w, some e)

/-- `sync_coin_ids` (`wallet_sync.rs` lines 135-168): chunk the coin id list
into groups of 10000 and run the chunk loop. -/
def sync_coin_ids (C : CryptoModel) (o : SyncOracle) (pk : Nat) (w : World)
    (coin_ids : List Bytes32) : World × Option SyncErr :=
  sync_coin_ids_go C o pk w 0 (coin_ids.toChunks 10000)

/-- The pagination loop of `sync_puzzle_hashes` (`wallet_sync.rs` lines
182-214), with `fuel` bounding the number of pages (the loop runs until a
response sets `is_finished`, which the peer may never do): request the next
page (`o.pages k`, where `k` is the global request counter), apply a
non-empty response through `incremental_sync` (setting `found_coins`),
advance the `(prev_height, prev_header_hash)` anchor to the response cursor,
and stop when `is_finished` is set. `none` means the fuel ran out. -/
def sync_puzzle_hashes_go (C : CryptoModel) (o : SyncOracle) (pk : Nat) :
    Nat → Nat → World → Option Nat → Bytes32 → Bool →
    Option (Except SyncErr (World × Nat × Bool))
  | 0, _, _, _, _, _ => none
  | fuel + 1, k, w, _prevHeight, _prevHeaderHash, found =>
    match o.pages k with
    | .error e => some (.error e)
    | .ok data =>
      match (if data.coinStates.isEmpty then (w, (none : Option SyncErr))
             else incremental_sync C o pk w data.coinStates true) with
      | (_, some e) => some (.error e)
      | (w, none) =>
        let found := found || !data.coinStates.isEmpty
        if data.isFinished then some (.ok (w, k + 1, found))
        else sync_puzzle_hashes_go C o pk fuel (k + 1) w (some data.height)
          data.headerHash found

/-- `sync_puzzle_hashes` over one batch (`wallet_sync.rs` lines 170-217):
run the pagination loop anchored at `(start_height, start_header_hash)` with
`found_coins = false`. -/
def sync_puzzle_hashes (C : CryptoModel) (o : SyncOracle) (pk pageFuel k : Nat)
    (w : World) (startHeight : Option Nat) (startHeaderHash : Bytes32) :
    Option (Except SyncErr (World × Nat × Bool)) :=
  sync_puzzle_hashes_go C o pk pageFuel k w startHeight startHeaderHash false

/-- A `for batch in hashes.chunks(500) { derive_more |= sync_puzzle_hashes(..) }`
loop (`wallet_sync.rs` lines 55-65 and 108-118): one `sync_puzzle_hashes` call
per batch, OR-ing the `found_coins` results into the accumulator. -/
def sync_batches_go (C : CryptoModel) (o : SyncOracle) (pk pageFuel : Nat)
    (k : Nat) (w : World) (startHeight : Option Nat) (startHeaderHash : Bytes32) :
    List (List Bytes32) → Bool → Option (Except SyncErr (World × Nat × Bool))
  | [], acc => some (.ok (w, k, acc))
  | _batch :: rest, acc =>
    match sync_puzzle_hashes C o pk pageFuel k w startHeight startHeaderHash with
    | none => none
    | some (.error e) => some (.error e)
    | some (.ok (w, k, found)) =>
      sync_batches_go C o pk pageFuel k w startHeight startHeaderHash rest
        (acc || found)

/-- The 500 new derivations of one frontier iteration (`wallet_sync.rs` lines
74-85): for each `index ∈ [start_index, start_index + 500)` compute the
synthetic key and p2 puzzle hash (`derivRow`; the rayon parallel map collects
in index order, so the result is the ordered list). -/
def frontierDerive (C : CryptoModel) (pk startIndex : Nat) : List DerivationRow :=
  (List.range' startIndex 500).map (derivRow C pk)

/-- The persist-and-emit stage of one frontier iteration (`wallet_sync.rs`
lines 74-106): compute the 500 new derivations, advance `start_index` by
their count, insert them all inside a single transaction (`hardened = false`
is part of `derivRow`), commit, and emit `DerivationIndex{next_index}` with
the advanced index. Returns the new world and the advanced start index. -/
def frontierPersistAndEmit (C : CryptoModel) (o : SyncOracle) (pk : Nat)
    (w : World) (startIndex : Nat) : Except SyncErr (World × Nat) :=
  let new_derivations := frontierDerive C pk startIndex
  let startIndex' := startIndex + new_derivations.length
  match insertDerivList o w.db new_derivations with
  | .error e => .error e
  | .ok tx =>
    if o.commitFails then .error .database
    else
      .ok ({ db := tx,
             events := w.events ++ [SyncEvent.derivationIndex startIndex'] },
           startIndex')

/-- The control flow of one frontier-loop body execution after the new
derivations are computed (`wallet_sync.rs` lines 94-118), abstracted over the
outcome `persisted` of the persist-and-emit stage and the 500-chunked batch
list `batches` of the freshly derived puzzle hashes: propagate a persist
error, otherwise run `sync_puzzle_hashes` over the batches and pair the
resulting state with the advanced start index and the `derive_more` flag. -/
def frontierStepGo (C : CryptoModel) (o : SyncOracle) (pk genesis pageFuel k : Nat)
    (persisted : Except SyncErr (World × Nat)) (batches : List (List Bytes32)) :
    Option (Except SyncErr ((World × Nat × Nat) × Bool)) :=
  match persisted with
  | .error e => some (.error e)
  | .ok (w, startIndex') =>
    match sync_batches_go C o pk pageFuel k w none genesis batches false with
    | none => none
    | some (.error e) => some (.error e)
    | some (.ok (w, k, found)) => some (.ok ((w, k, startIndex'), found))

/-- One full body execution of the frontier extension loop (`wallet_sync.rs`
lines 69-119), on the state `(world, page counter, start_index)`: persist and
emit the next 500 derivations, then run `sync_puzzle_hashes` over their
puzzle hashes (chunked by 500, so exactly one batch) anchored at genesis.
Returns the new state and the `derive_more` flag for the next iteration;
`none` when the inner pagination fuel ran out. -/
def frontierStep (C : CryptoModel) (o : SyncOracle) (pk genesis pageFuel : Nat)
    (st : World × Nat × Nat) :
    Option (Except SyncErr ((World × Nat × Nat) × Bool)) :=
  frontierStepGo C o pk genesis pageFuel st.2.1
    (frontierPersistAndEmit C o pk st.1 st.2.2)
    (((frontierDerive C pk st.2.2).map (fun r => r.puzzleHash)).toChunks 500)

/-- The frontier extension loop `while derive_more { derive_more = false;
.. body .. }` (`wallet_sync.rs` lines 69-119), with `fuel` bounding the
number of iterations: when `derive_more` is false the loop exits immediately
with the current world; otherwise one `frontierStep` runs and the loop
continues with its `derive_more` result. `none` means fuel ran out. -/
def frontier_loop (C : CryptoModel) (o : SyncOracle) (pk genesis pageFuel : Nat) :
    Nat → (World × Nat × Nat) → Bool → Option (Except SyncErr (World × Nat))
  | _, (w, k, _), false => some (.ok (w, k))
  | 0, _, true => none
  | fuel + 1, st, true =>
    match frontierStep C o pk genesis pageFuel st with
    | none => none
    | some (.error e) => some (.error e)
    | some (.ok (st', found)) => frontier_loop C o pk genesis pageFuel fuel st' found

/-- The iterated frontier body: `frontierRun j st` is the outcome of the
`(j+1)`-th body execution starting from `st`, under the proviso that every
earlier body execution succeeded with `derive_more = true` (otherwise the
iteration in question is never reached and the value is `none`). -/
def frontierRun (C : CryptoModel) (o : SyncOracle) (pk genesis pageFuel : Nat) :
    Nat → (World × Nat × Nat) → Option (Except SyncErr ((World × Nat × Nat) × Bool))
  | 0, st => frontierStep C o pk genesis pageFuel st
  | j + 1, st =>
    match frontierStep C o pk genesis pageFuel st with
    | some (.ok (st', true)) => frontierRun C o pk genesis pageFuel j st'
    | _ => none

/-- `sync_wallet(wallet, peer, state, sync_sender)` (`wallet_sync.rs` lines
23-133). Reads the p2 puzzle hashes (the derivations table) and the latest
peak (genesis challenge when absent); collects the unspent NFT/DID/CAT coin
ids (an oracle query); runs `sync_coin_ids`; runs `sync_puzzle_hashes` over
the 500-chunks of the known p2 puzzle hashes, OR-ing into `derive_more`
(initialized to `p2_puzzle_hashes.is_empty()`); runs the frontier loop from
`start_index = p2_puzzle_hashes.len()`; finally reads the shared `PeerState`
peak for this peer and persists it when present (`insert_peak`, a direct
database write). `none` means a loop fuel ran out. -/
def sync_wallet (C : CryptoModel) (o : SyncOracle) (fuel pageFuel pk genesis : Nat)
    (w : World) : Option (Except SyncErr World) :=
  let p2_puzzle_hashes := w.db.derivations.map (fun r => r.puzzleHash)
  let startPair := match w.db.peak with
    | none => ((none : Option Nat), genesis)
    | some (peak, header_hash) => (some peak, header_hash)
  match sync_coin_ids C o pk w o.coinIds with
  | (_, some e) => some (.error e)
  | (w, none) =>
    match sync_batches_go C o pk pageFuel 0 w startPair.1 startPair.2
        (p2_puzzle_hashes.toChunks 500) p2_puzzle_hashes.isEmpty with
    | none => none
    | some (.error e) => some (.error e)
    | some (.ok (w, k, derive_more)) =>
      match frontier_loop C o pk genesis pageFuel fuel
          (w, k, p2_puzzle_hashes.length) derive_more with
      | none => none
      | some (.error e) => some (.error e)
      | some (.ok (w, _)) =>
        match o.peakOf with
        | some (height, header_hash) =>
          if o.insertPeakFails then some (.error .database)
          else some (.ok { w with db := { w.db with peak := some (height, header_hash) } })
        | none => some (.ok w)

/-- Errors of the peer client (`ClientError`), restricted to the variants the
inbound task and `request_raw` produce. -/
inductive ClientErr where
  | malformedFrame
  | eventNotSent
  | unexpectedMessage (kind : Nat)
  | peerDropped
deriving DecidableEq, Repr

/-- A decoded protocol message (`chia::protocol::Message`):
`{msg_type, id: optional u16, data}`. -/
structure MessageM where
  msgType : Nat
  id : Option Nat
  data : List Nat
deriving DecidableEq, Repr

/-- The WebSocket frames the inbound task distinguishes
(`tungstenite::Message`). -/
inductive WsFrame where
  | text (s : String)
  | close
  | ping
  | pong
  | frame
  | binary (bytes : List Nat)
deriving DecidableEq, Repr

/-- The bounded mpsc channel carrying unsolicited events to the consumer
(`mpsc::channel(32)` in `Peer::from_websocket`): a buffer, its capacity, and
whether the receiver has been dropped. -/
structure EventChannel where
  buffer : List MessageM
  capacity : Nat
  closed : Bool
deriving DecidableEq, Repr

/-- The outcome of one `sender.send(message).await` on the bounded channel
(tokio mpsc semantics): an error exactly when the receiver has been dropped;
delivery when a buffer slot is free; otherwise the send suspends until
capacity frees up. -/
inductive SendOutcome where
  | delivered (ch : EventChannel)
  | parked
  | errored
deriving DecidableEq, Repr

/-- `sender.send(m).await` on the bounded event channel. -/
def sendEvent (ch : EventChannel) (m : MessageM) : SendOutcome :=
  if ch.closed then .errored
  else if ch.buffer.length < ch.capacity then
    .delivered { ch with buffer := ch.buffer ++ [m] }
  else .parked

/-- The state the inbound task reads and writes while handling one frame: the
live request slots of the `RequestMap` (request id paired with the index of
the waiter whose oneshot sender is parked there), the waiters themselves, and
the unsolicited-event channel. -/
structure InboundState where
  slots : List (Nat × Nat)
  waiters : List MessageM
  channel : EventChannel
deriving DecidableEq, Repr

/-- What handling one frame does to the inbound task
(`handle_inbound_messages`, `peer.rs` lines 331-369): keep running, break out
of the read loop (Close), fail with a `ClientError`, or suspend on a full
event channel. `fulfilled` records oneshot deliveries `request.send(message)`
made while handling the frame. -/
inductive StepResult where
  | running (st : InboundState) (fulfilled : List (Nat × MessageM))
  | closed (st : InboundState)
  | failed (st : InboundState) (e : ClientErr)
  | blocked (st : InboundState)
deriving DecidableEq, Repr

/-- One iteration of the inbound read loop (`peer.rs` lines 334-368) on one
frame. `decode` stands for `Message::from_bytes` (the external codec): `none`
is a decode failure. Text/Ping/Pong/Frame frames are logged or ignored; a
Close frame breaks the loop; a binary frame is decoded and demultiplexed: an
id-less message goes to the unsolicited-event channel (failing the task with
`EventNotSent` when the channel is closed, suspending when it is full), a
message with a live slot id is delivered to that slot's waiter and the slot
removed, and a message with an untracked id fails the task with
`UnexpectedMessage(kind)`. -/
def inboundStep (decode : List Nat → Option MessageM) (st : InboundState) :
    WsFrame → StepResult
  | .text _ => .running st []
  | .close => .closed st
  | .ping => .running st []
  | .pong => .running st []
  | .frame => .running st []
  | .binary bytes =>
    match decode bytes with
    | none => .failed st .malformedFrame
    | some message =>
      match message.id with
      | none =>
        match sendEvent st.channel message with
        | .delivered ch => .running { st with channel := ch } []
        | .parked => .blocked st
        | .errored => .failed st .eventNotSent
      | some id =>
        match st.slots.lookup id with
        | none => .failed st (.unexpectedMessage message.msgType)
        | some waiter =>
          .running { st with slots := st.slots.filter (fun p => p.1 != id) }
            [(waiter, message)]

/-- How a `request_raw` waiter parked in the `RequestMap` ends up. -/
inductive WaiterState where
  | pending
  | fulfilled (m : MessageM)
  | dropped
deriving DecidableEq, Repr

/-- The ownership state relevant to `RequestMap` teardown: the live slots
(request id paired with waiter index), the waiters, and the two `Arc`
references to the map — the clone held by the spawned inbound task
(`requests_clone`, `peer.rs` line 110) and the one held by `PeerInner`
(`peer.rs` line 56). The map, and with it every parked oneshot sender, is
dropped exactly when both references are gone. -/
structure PeerLife where
  slots : List (Nat × Nat)
  waiters : List WaiterState
  taskRef : Bool
  innerRef : Bool
deriving DecidableEq, Repr

/-- Whether the `RequestMap` is still allocated (some `Arc` reference is
held). -/
def mapAlive (p : PeerLife) : Bool := p.taskRef || p.innerRef

/-- Dropping the stored oneshot senders: every waiter that is still pending
and has a live slot observes `PeerDropped` (its receiver resolves with a
`RecvError`). `i` numbers the waiters being walked. -/
def dropWaiters (slots : List (Nat × Nat)) : Nat → List WaiterState → List WaiterState
  | _, [] => []
  | i, wst :: rest =>
    (if (slots.any fun s => s.2 == i) && wst == WaiterState.pending then
      WaiterState.dropped
    else wst) :: dropWaiters slots (i + 1) rest

/-- Dropping the `RequestMap` itself: every stored sender is dropped and the
slots are gone. -/
def dropRequestMap (p : PeerLife) : PeerLife :=
  { p with slots := [], waiters := dropWaiters p.slots 0 p.waiters }

/-- The inbound task receives a Close frame: `handle_inbound_messages` breaks
its read loop (`peer.rs` lines 338-341) and returns `Ok(())`, so the spawned
task finishes and its `Arc` clone of the `RequestMap` is released. The map is
dropped only if no other reference remains. -/
def taskExitOnClose (p : PeerLife) : PeerLife :=
  let q := { p with taskRef := false }
  if mapAlive q then q else dropRequestMap q

/-- `PeerInner::drop` (`peer.rs` lines 318-322): the last `Peer` handle is
gone; the inbound task is aborted (releasing its `Arc` clone) and the
`PeerInner` fields are dropped (releasing the other reference), so the
`RequestMap` is dropped with all its senders. -/
def dropPeerHandle (p : PeerLife) : PeerLife :=
  dropRequestMap { p with taskRef := false, innerRef := false }

/-- A snapshot of `request_raw`'s progress (`peer.rs` lines 299-315):
whether this request's oneshot sender has been inserted into the
`RequestMap`, whether this call holds the send-half mutex, whether the framed
request has been written, and whether the call is suspended on
`receiver.await`. -/
structure RRState where
  slotLive : Bool
  sinkLocked : Bool
  frameWritten : Bool
  awaiting : Bool
deriving DecidableEq, Repr

/-- The successive states of one `request_raw` call, transcribed from the
statement order of `peer.rs` lines 303-314: (1) the oneshot channel is
created; (2) `self.0.requests.insert(sender).await` parks the sink and the
message is built with the returned id; (3) `self.0.sink.lock().await`
acquires the send-half mutex; (4) `.send(message).await` writes the frame;
(5) the temporary lock guard is dropped at the end of that statement;
(6) `receiver.await` suspends until the response or `PeerDropped`. -/
def requestRawTrace : List RRState :=
  [ { slotLive := false, sinkLocked := false, frameWritten := false, awaiting := false },
    { slotLive := true,  sinkLocked := false, frameWritten := false, awaiting := false },
    { slotLive := true,  sinkLocked := true,  frameWritten := false, awaiting := false },
    { slotLive := true,  sinkLocked := true,  frameWritten := true,  awaiting := false },
    { slotLive := true,  sinkLocked := false, frameWritten := true,  awaiting := false },
    { slotLive := true,  sinkLocked := false, frameWritten := true,  awaiting := true } ]

/-- Errors of the wallet-connect endpoint relevant to
`filter_unlocked_coins`: a coin id that fails to parse. -/
inductive WcErr where
  | parseError
deriving DecidableEq, Repr

/-- `Sage::filter_unlocked_coins` (`wallet_connect.rs` lines 19-37): walk the
requested coin id strings in order; parse each (`parse_coin_id`, an external
parser modelled as the `parse` parameter — `none` is a parse failure, which
aborts the whole call with an error and discards everything collected so
far); keep exactly those whose coin is not locked in the wallet database
(`is_coin_locked`, modelled as the `locked` predicate). -/
def filter_unlocked_coins (parse : String → Option Bytes32)
    (locked : Bytes32 → Bool) : List String → Except WcErr (List String)
  | [] => .ok []
  | coin_id :: rest =>
    match parse coin_id with
    | none => .error .parseError
    | some cid =>
      if locked cid then filter_unlocked_coins parse locked rest
      else
        match filter_unlocked_coins parse locked rest with
        | .error e => .error e
        | .ok tail => .ok (coin_id :: tail)

/-! ### Concrete instances used by the evaluation witnesses -/

/-- A concrete crypto model for evaluating the embedding on closed inputs
(the claims hold for every `CryptoModel`; the witnesses pick a cheap one). -/
def cW : CryptoModel :=
  { deriveUnhardened := fun pk index => pk + index,
    deriveSynthetic := fun x => x,
    curryTreeHash := fun x => x }

/-- A concrete oracle with no failing operations: `derivation_index(false)`
reads 1000, `max_used_derivation_index(false)` reads `some 0`, the peer
returns no coin states and finishes pagination immediately, and the shared
peer state records the peak `(5, 9)`. -/
def oW : SyncOracle :=
  { upsertFails := fun _ => false, deletePuzzleFails := fun _ => false,
    insertDerivationFails := fun _ => false, commitFails := false,
    insertPeakFails := false, derivationIndexOf := fun _ => 1000,
    maxUsedOf := fun _ => some 0, coinIds := [],
    subscribeCoins := fun _ => .ok [],
    pages := fun _ =>
      .ok { coinStates := [], height := 0, headerHash := 0, isFinished := true },
    peakOf := some (5, 9) }

/-- The oracle `oW` with every coin upsert failing. -/
def oFailW : SyncOracle := { oW with upsertFails := fun _ => true }

/-- An empty world. -/
def w0 : World :=
  { db := { coinRows := [], puzzles := [], derivations := [], peak := none },
    events := [] }

/-- One concrete coin state. -/
def csW : CoinStateR :=
  { coin := { parent_coin_info := 1, puzzle_hash := 2, amount := 3 },
    created_height := some 10, spent_height := none }

/-- A world holding one derivation row and no peak. -/
def w7 : World :=
  { db := { coinRows := [], puzzles := [],
            derivations := [{ index := 0, hardened := false, syntheticKey := 0, puzzleHash := 0 }],
            peak := none },
    events := [] }

/-- The world `w7` after the peak `(5, 9)` has been persisted. -/
def w7f : World :=
  { db := { coinRows := [], puzzles := [],
            derivations := [{ index := 0, hardened := false, syntheticKey := 0, puzzleHash := 0 }],
            peak := some (5, 9) },
    events := [] }

/-- The frontier state after one body execution from `(w0, 0, 0)` with the
crypto model `cW`, intermediate key 3 and the oracle `oW`. -/
def c8St : World × Nat × Nat :=
  ({ db := { coinRows := [], puzzles := [],
             derivations := frontierDerive cW 3 0, peak := none },
     events := [SyncEvent.derivationIndex 500] }, 1, 500)

/-- A peer with one live slot (request id 7, waiter 0), one pending waiter,
and both `RequestMap` references held. -/
def p4ex : PeerLife :=
  { slots := [(7, 0)], waiters := [WaiterState.pending],
    taskRef := true, innerRef := true }

/-- A concrete id-less message. -/
def mW : MessageM := { msgType := 84, id := none, data := [] }

/-- A full but open event channel of capacity 32. -/
def chFullW : EventChannel :=
  { buffer := List.replicate 32 { msgType := 0, id := none, data := [] },
    capacity := 32, closed := false }

/-- An inbound state whose event channel is full but open. -/
def stFullW : InboundState := { slots := [], waiters := [], channel := chFullW }

/-- An inbound state with no slots and an empty open event channel. -/
def stOpenW : InboundState :=
  { slots := [], waiters := [],
    channel := { buffer := [], capacity := 32, closed := false } }

/-- A codec stub decoding every byte string to `mW`. -/
def decodeW : List Nat → Option MessageM := fun _ => some mW

/-- A concrete message correlated with the untracked id 9. -/
def mIdW : MessageM := { msgType := 3, id := some 9, data := [] }

/-- A codec stub decoding every byte string to `mIdW`. -/
def decodeIdW : List Nat → Option MessageM := fun _ => some mIdW

/-! ### Helper lemmas about the database operations -/

theorem upsert_coin_fields (o : SyncOracle) (tx : WalletDb) (cs : CoinStateR)
    (tx' : WalletDb) (h : upsert_coin o tx cs = .ok tx') :
    tx'.derivations = tx.derivations ∧ tx'.peak = tx.peak := by
  unfold upsert_coin at h
  by_cases hb : o.upsertFails cs
  · simp [hb] at h
  · simp only [hb, if_false, Bool.false_eq_true, ite_false, Except.ok.injEq] at h
    subst h
    exact ⟨rfl, rfl⟩

theorem delete_puzzle_fields (o : SyncOracle) (tx : WalletDb) (cid : Bytes32)
    (tx' : WalletDb) (h : delete_puzzle o tx cid = .ok tx') :
    tx'.derivations = tx.derivations ∧ tx'.peak = tx.peak := by
  unfold delete_puzzle at h
  by_cases hb : o.deletePuzzleFails cid
  · simp [hb] at h
  · simp only [hb, if_false, Bool.false_eq_true, ite_false, Except.ok.injEq] at h
    subst h
    exact ⟨rfl, rfl⟩

theorem upsertLoop_fields (o : SyncOracle) :
    ∀ (cs : List CoinStateR) (tx tx' : WalletDb),
      upsertLoop o tx cs = .ok tx' →
      tx'.derivations = tx.derivations ∧ tx'.peak = tx.peak := by
  intro cs
  induction cs with
  | nil =>
    intro tx tx' h
    simp only [upsertLoop, Except.ok.injEq] at h
    subst h
    exact ⟨rfl, rfl⟩
  | cons c rest ih =>
    intro tx tx' h
    simp only [upsertLoop] at h
    cases hu : upsert_coin o tx c with
    | error e => rw [hu] at h; exact absurd h (by simp)
    | ok tx1 =>
      rw [hu] at h
      simp only at h
      have h1 := upsert_coin_fields o tx c tx1 hu
      cases hd : (if c.spent_height.isSome then delete_puzzle o tx1 c.coin.coinId
                  else Except.ok tx1) with
      | error e => rw [hd] at h; exact absurd h (by simp)
      | ok tx2 =>
        rw [hd] at h
        have h2 : tx2.derivations = tx1.derivations ∧ tx2.peak = tx1.peak := by
          by_cases hs : c.spent_height.isSome
          · rw [if_pos hs] at hd
            exact delete_puzzle_fields o tx1 c.coin.coinId tx2 hd
          · rw [if_neg hs] at hd
            cases hd
            exact ⟨rfl, rfl⟩
        have h3 := ih tx2 tx' h
        exact ⟨h3.1.trans (h2.1.trans h1.1), h3.2.trans (h2.2.trans h1.2)⟩

theorem insertDerivList_ok_fields (o : SyncOracle) :
    ∀ (l : List DerivationRow) (tx tx' : WalletDb),
      insertDerivList o tx l = .ok tx' →
      tx'.derivations = tx.derivations ++ l ∧ tx'.coinRows = tx.coinRows ∧
      tx'.puzzles = tx.puzzles ∧ tx'.peak = tx.peak := by
  intro l
  induction l with
  | nil =>
    intro tx tx' h
    simp only [insertDerivList, Except.ok.injEq] at h
    subst h
    exact ⟨by simp, rfl, rfl, rfl⟩
  | cons row rest ih =>
    intro tx tx' h
    simp only [insertDerivList, insert_derivation] at h
    by_cases hf : o.insertDerivationFails row.index
    · simp [hf] at h
    · simp only [hf, if_false, Bool.false_eq_true, ite_false] at h
      have h1 := ih _ _ h
      refine ⟨?_, h1.2.1, h1.2.2.1, h1.2.2.2⟩
      rw [h1.1]
      simp [List.append_assoc]

theorem insertDerivList_noFail (o : SyncOracle)
    (hf : ∀ i, o.insertDerivationFails i = false) :
    ∀ (l : List DerivationRow) (tx : WalletDb),
      insertDerivList o tx l = .ok { tx with derivations := tx.derivations ++ l } := by
  intro l
  induction l with
  | nil => intro tx; simp [insertDerivList]
  | cons row rest ih =>
    intro tx
    simp only [insertDerivList, insert_derivation, hf row.index, Bool.false_eq_true,
      ite_false, if_false]
    rw [ih]
    simp [List.append_assoc]

theorem deriveLoop_spec (C : CryptoModel) (o : SyncOracle) (pk : Nat) :
    ∀ (fuel : Nat) (tx : WalletDb) (n m : Nat) (txf : WalletDb) (n' : Nat) (d : Bool),
      m + 500 - n ≤ fuel →
      deriveLoop C o pk tx n m = .ok (txf, n', d) →
      (d = true ↔ n < m + 500) ∧ m + 500 ≤ n' ∧
      ∃ k, n' = n + 500 * k ∧
        (0 < k → n + 500 * (k - 1) < m + 500) ∧
        txf.derivations = tx.derivations ++ (List.range' n (500 * k)).map (derivRow C pk) ∧
        txf.coinRows = tx.coinRows ∧ txf.puzzles = tx.puzzles ∧ txf.peak = tx.peak := by
  intro fuel
  induction fuel with
  | zero =>
    intro tx n m txf n' d hb h
    have hge : ¬ n < m + 500 := by omega
    rw [deriveLoop.eq_def, if_neg hge] at h
    simp only [Except.ok.injEq, Prod.mk.injEq] at h
    obtain ⟨rfl, rfl, rfl⟩ := h
    refine ⟨by simp [hge], by omega, 0, by simp, by simp, by simp, rfl, rfl, rfl⟩
  | succ fuel ih =>
    intro tx n m txf n' d hb h
    rw [deriveLoop.eq_def] at h
    by_cases hlt : n < m + 500
    · rw [if_pos hlt] at h
      cases hins : insert_unhardened_derivations C o pk tx n (n + 500) with
      | error e => rw [hins] at h; exact absurd h (by simp [Except.bind])
      | ok tx1 =>
        rw [hins] at h
        simp only [Except.bind] at h
        cases hrec : deriveLoop C o pk tx1 (n + 500) m with
        | error e => rw [hrec] at h; exact absurd h (by simp [Except.map])
        | ok trip =>
          obtain ⟨txf1, nf1, d1⟩ := trip
          rw [hrec] at h
          simp only [Except.map, Except.ok.injEq, Prod.mk.injEq] at h
          obtain ⟨he1, he2, he3⟩ := h
          have hins' : insertDerivList o tx ((List.range' n 500).map (derivRow C pk)) =
              .ok tx1 := by
            simpa [insert_unhardened_derivations, Nat.add_sub_cancel_left] using hins
          have hfields := insertDerivList_ok_fields o _ _ _ hins'
          obtain ⟨_, IH2, k', hk1, hk2, hk3, hk4, hk5, hk6⟩ :=
            ih tx1 (n + 500) m txf1 nf1 d1 (by omega) hrec
          rw [← he1, ← he2, ← he3]
          refine ⟨by simp [hlt], by omega, k' + 1, by omega, ?_, ?_, ?_, ?_, ?_⟩
          · intro _
            rcases Nat.eq_zero_or_pos k' with hk0 | hkp
            · omega
            · have h2 := hk2 hkp
              omega
          · have hr : List.range' n 500 ++ List.range' (n + 500) (500 * k') =
                List.range' n (500 * (k' + 1)) := by
              have h5 := List.range'_append n 500 (500 * k') 1
              simp only [one_mul] at h5
              rw [h5, Nat.mul_succ, Nat.add_comm]
            rw [hk3, hfields.1, List.append_assoc, ← List.map_append, hr]
          · exact hk4.trans hfields.2.1
          · exact hk5.trans hfields.2.2.1
          · exact hk6.trans hfields.2.2.2
    · rw [if_neg hlt] at h
      simp only [Except.ok.injEq, Prod.mk.injEq] at h
      obtain ⟨rfl, rfl, rfl⟩ := h
      refine ⟨by simp [hlt], by omega, 0, by simp, by simp, by simp, rfl, rfl, rfl⟩

theorem incremental_sync_world_peak (C : CryptoModel) (o : SyncOracle) (pk : Nat)
    (w : World) (cs : List CoinStateR) (da : Bool) :
    ((incremental_sync C o pk w cs da).1).db.peak = w.db.peak := by
  simp only [incremental_sync]
  cases hu : upsertLoop o w.db cs with
  | error e => rfl
  | ok tx1 =>
    have h1 := upsertLoop_fields o cs w.db tx1 hu
    cases hs : (if da then
        deriveLoop C o pk tx1 (o.derivationIndexOf tx1)
          ((o.maxUsedOf tx1).elim 0 fun i => i + 1)
      else Except.ok (tx1, o.derivationIndexOf tx1, false)) with
    | error e => simp only [hs]
    | ok trip =>
      obtain ⟨tx2, ni, d⟩ := trip
      have h2 : tx2.peak = tx1.peak := by
        by_cases hda : da
        · rw [if_pos hda] at hs
          obtain ⟨_, _, k, _, _, _, _, _, hp⟩ :=
            deriveLoop_spec C o pk
              (((o.maxUsedOf tx1).elim 0 fun i => i + 1) + 500 - o.derivationIndexOf tx1)
              tx1 (o.derivationIndexOf tx1) ((o.maxUsedOf tx1).elim 0 fun i => i + 1)
              tx2 ni d (by omega) hs
          exact hp
        · rw [if_neg hda] at hs
          simp only [Except.ok.injEq, Prod.mk.injEq] at hs
          rw [← hs.1]
      simp only [hs]
      by_cases hc : o.commitFails
      · simp [hc]
      · simp [hc, h2, h1.2]

theorem sync_coin_ids_go_peak (C : CryptoModel) (o : SyncOracle) (pk : Nat) :
    ∀ (chunks : List (List Bytes32)) (w : World) (i : Nat) (w' : World)
      (oe : Option SyncErr),
      sync_coin_ids_go C o pk w i chunks = (w', oe) →
      oe = none → w'.db.peak = w.db.peak := by
  intro chunks
  induction chunks with
  | nil =>
    intro w i w' oe h _
    simp only [sync_coin_ids_go, Prod.mk.injEq] at h
    rw [← h.1]
  | cons chunk rest ih =>
    intro w i w' oe h hnone
    simp only [sync_coin_ids_go] at h
    cases hsub : o.subscribeCoins i with
    | error e =>
      rw [hsub] at h
      simp only [Prod.mk.injEq] at h
      rw [← h.2] at hnone
      exact absurd hnone (by simp)
    | ok coin_states =>
      rw [hsub] at h
      simp only at h
      by_cases he : coin_states.isEmpty
      · rw [if_pos he] at h
        exact ih w (i + 1) w' oe h hnone
      · rw [if_neg he] at h
        cases hi : incremental_sync C o pk w coin_states true with
        | mk w1 oe1 =>
          rw [hi] at h
          have hp : w1.db.peak = w.db.peak := by
            have := incremental_sync_world_peak C o pk w coin_states true
            rw [hi] at this
            exact this
          cases oe1 with
          | none =>
            simp only at h
            exact (ih w1 (i + 1) w' oe h hnone).trans hp
          | some e =>
            simp only [Prod.mk.injEq] at h
            rw [← h.2] at hnone
            exact absurd hnone (by simp)

theorem sync_puzzle_hashes_go_peak (C : CryptoModel) (o : SyncOracle) (pk : Nat) :
    ∀ (fuel k : Nat) (w : World) (ph : Option Nat) (hh : Bytes32) (f : Bool)
      (w' : World) (k' : Nat) (f' : Bool),
      sync_puzzle_hashes_go C o pk fuel k w ph hh f = some (.ok (w', k', f')) →
      w'.db.peak = w.db.peak := by
  intro fuel
  induction fuel with
  | zero => intro k w ph hh f w' k' f' h; exact absurd h (by simp [sync_puzzle_hashes_go])
  | succ fuel ih =>
    intro k w ph hh f w' k' f' h
    simp only [sync_puzzle_hashes_go] at h
    cases hpg : o.pages k with
    | error e =>
      rw [hpg] at h
      simp only [Option.some.injEq] at h
      exact absurd h (by simp)
    | ok data =>
      rw [hpg] at h
      simp only at h
      by_cases he : data.coinStates.isEmpty
      · rw [if_pos he] at h
        simp only at h
        by_cases hf : data.isFinished
        · rw [if_pos hf] at h
          simp only [Option.some.injEq, Except.ok.injEq, Prod.mk.injEq] at h
          rw [← h.1]
        · rw [if_neg hf] at h
          exact ih (k + 1) w (some data.height) data.headerHash
            (f || !data.coinStates.isEmpty) w' k' f' h
      · rw [if_neg he] at h
        cases hi : incremental_sync C o pk w data.coinStates true with
        | mk w1 oe1 =>
          rw [hi] at h
          have hp : w1.db.peak = w.db.peak := by
            have := incremental_sync_world_peak C o pk w data.coinStates true
            rw [hi] at this
            exact this
          cases oe1 with
          | none =>
            simp only at h
            by_cases hf : data.isFinished
            · rw [if_pos hf] at h
              simp only [Option.some.injEq, Except.ok.injEq, Prod.mk.injEq] at h
              rw [← h.1]
              exact hp
            · rw [if_neg hf] at h
              exact (ih (k + 1) w1 (some data.height) data.headerHash
                (f || !data.coinStates.isEmpty) w' k' f' h).trans hp
          | some e =>
            simp only [Option.some.injEq] at h
            exact absurd h (by simp)

theorem sync_batches_go_peak (C : CryptoModel) (o : SyncOracle) (pk pageFuel : Nat)
    (sh : Option Nat) (shh : Bytes32) :
    ∀ (batches : List (List Bytes32)) (k : Nat) (w : World) (acc : Bool)
      (w' : World) (k' : Nat) (f' : Bool),
      sync_batches_go C o pk pageFuel k w sh shh batches acc = some (.ok (w', k', f')) →
      w'.db.peak = w.db.peak := by
  intro batches
  induction batches with
  | nil =>
    intro k w acc w' k' f' h
    simp only [sync_batches_go, Option.some.injEq, Except.ok.injEq, Prod.mk.injEq] at h
    rw [← h.1]
  | cons b rest ih =>
    intro k w acc w' k' f' h
    simp only [sync_batches_go] at h
    cases hs : sync_puzzle_hashes C o pk pageFuel k w sh shh with
    | none => rw [hs] at h; exact absurd h (by simp)
    | some r =>
      rw [hs] at h
      cases r with
      | error e => exact absurd h (by simp)
      | ok trip =>
        obtain ⟨w1, k1, f1⟩ := trip
        simp only at h
        have hp : w1.db.peak = w.db.peak :=
          sync_puzzle_hashes_go_peak C o pk pageFuel k w sh shh false w1 k1 f1 hs
        exact (ih k1 w1 (acc || f1) w' k' f' h).trans hp

theorem frontierPersistAndEmit_fields (C : CryptoModel) (o : SyncOracle) (pk : Nat)
    (w : World) (s : Nat) (w' : World) (s' : Nat)
    (h : frontierPersistAndEmit C o pk w s = .ok (w', s')) :
    w'.db.peak = w.db.peak ∧ w'.db.coinRows = w.db.coinRows ∧
    w'.db.puzzles = w.db.puzzles := by
  simp only [frontierPersistAndEmit] at h
  cases hins : insertDerivList o w.db (frontierDerive C pk s) with
  | error e => rw [hins] at h; exact absurd h (by simp)
  | ok tx =>
    rw [hins] at h
    simp only at h
    by_cases hc : o.commitFails
    · rw [if_pos hc] at h
      exact absurd h (by simp)
    · rw [if_neg hc] at h
      simp only [Except.ok.injEq, Prod.mk.injEq] at h
      have hf := insertDerivList_ok_fields o _ _ _ hins
      rw [← h.1]
      exact ⟨hf.2.2.2, hf.2.1, hf.2.2.1⟩

theorem frontierStepGo_peak (C : CryptoModel) (o : SyncOracle) (pk genesis pageFuel k : Nat)
    (P : Option (Nat × Bytes32)) (pe : Except SyncErr (World × Nat))
    (L : List (List Bytes32))
    (hpe : ∀ w1 s1, pe = .ok (w1, s1) → w1.db.peak = P)
    (st' : World × Nat × Nat) (found : Bool)
    (h : frontierStepGo C o pk genesis pageFuel k pe L = some (.ok (st', found))) :
    st'.1.db.peak = P := by
  cases pe with
  | error e => exact absurd h (by simp [frontierStepGo])
  | ok pr =>
    obtain ⟨w1, s1⟩ := pr
    simp only [frontierStepGo] at h
    cases hb : sync_batches_go C o pk pageFuel k w1 none genesis L false with
    | none => rw [hb] at h; exact absurd h (by simp)
    | some r =>
      rw [hb] at h
      cases r with
      | error e => exact absurd h (by simp)
      | ok trip =>
        obtain ⟨w2, k2, f2⟩ := trip
        simp only [Option.some.injEq, Except.ok.injEq, Prod.mk.injEq] at h
        have h2 := sync_batches_go_peak C o pk pageFuel none genesis L k w1 false
          w2 k2 f2 hb
        rw [← h.1]
        exact h2.trans (hpe w1 s1 rfl)

theorem frontierStep_peak (C : CryptoModel) (o : SyncOracle) (pk genesis pageFuel : Nat)
    (st : World × Nat × Nat) (st' : World × Nat × Nat) (found : Bool)
    (h : frontierStep C o pk genesis pageFuel st = some (.ok (st', found))) :
    st'.1.db.peak = st.1.db.peak := by
  obtain ⟨w, k, s⟩ := st
  simp only [frontierStep] at h
  have hpe : ∀ w1 s1, frontierPersistAndEmit C o pk w s = .ok (w1, s1) →
      w1.db.peak = w.db.peak :=
    fun w1 s1 hp => (frontierPersistAndEmit_fields C o pk w s w1 s1 hp).1
  exact frontierStepGo_peak C o pk genesis pageFuel k w.db.peak _ _ hpe st' found h

theorem frontier_loop_peak (C : CryptoModel) (o : SyncOracle) (pk genesis pageFuel : Nat) :
    ∀ (fuel : Nat) (st : World × Nat × Nat) (dm : Bool) (w' : World) (k' : Nat),
      frontier_loop C o pk genesis pageFuel fuel st dm = some (.ok (w', k')) →
      w'.db.peak = st.1.db.peak := by
  intro fuel
  induction fuel with
  | zero =>
    intro st dm w' k' h
    obtain ⟨w, k, s⟩ := st
    cases dm with
    | false =>
      simp only [frontier_loop, Option.some.injEq, Except.ok.injEq, Prod.mk.injEq] at h
      rw [← h.1]
    | true => exact absurd h (by simp [frontier_loop])
  | succ fuel ih =>
    intro st dm w' k' h
    obtain ⟨w, k, s⟩ := st
    cases dm with
    | false =>
      simp only [frontier_loop, Option.some.injEq, Except.ok.injEq, Prod.mk.injEq] at h
      rw [← h.1]
    | true =>
      simp only [frontier_loop] at h
      cases hstep : frontierStep C o pk genesis pageFuel (w, k, s) with
      | none => rw [hstep] at h; exact absurd h (by simp)
      | some r =>
        rw [hstep] at h
        cases r with
        | error e => exact absurd h (by simp)
        | ok pr =>
          obtain ⟨st', found⟩ := pr
          simp only at h
          have h1 := frontierStep_peak C o pk genesis pageFuel (w, k, s) st' found hstep
          exact (ih st' found w' k' h).trans h1

/-! ### Claim theorems -/

/-- C1: `incremental_sync` performs all coin upserts, spent-coin puzzle
deletions and derivation insertions inside a single database transaction
(one staged copy, one commit, by the structure of `incremental_sync`): if any
of these operations fails — or the commit itself fails — the call returns the
error and the observable world is exactly the input world, so no coin or
derivation row is mutated and no progress event has been emitted before the
commit. -/
theorem c1_incremental_sync_atomic (C : CryptoModel) (o : SyncOracle) (pk : Nat)
    (w : World) (coin_states : List CoinStateR) (derive_automatically : Bool)
    (e : SyncErr)
    (h : (incremental_sync C o pk w coin_states derive_automatically).2 = some e) :
    (incremental_sync C o pk w coin_states derive_automatically).1 = w := by
  simp only [incremental_sync] at h ⊢
  cases hu : upsertLoop o w.db coin_states with
  | error e1 => rfl
  | ok tx1 =>
    rw [hu] at h
    simp only at h
    cases hs : (if derive_automatically then
        deriveLoop C o pk tx1 (o.derivationIndexOf tx1)
          ((o.maxUsedOf tx1).elim 0 fun i => i + 1)
      else Except.ok (tx1, o.derivationIndexOf tx1, false)) with
    | error e1 => simp only [hs]
    | ok trip =>
      obtain ⟨tx2, ni, d⟩ := trip
      rw [hs] at h
      simp only at h
      simp only [hs]
      by_cases hc : o.commitFails
      · simp [hc]
      · rw [if_neg hc] at h
        simp at h

/-- C3: in `incremental_sync` with `derive_automatically` set, after the coin
upserts (`hup` names their result) the function reads the current unhardened
derivation index `o.derivationIndexOf tx1` and the maximum used unhardened
derivation index (`hmu : ... = some mu`), and the derivation loop runs while
`next_index < mu + 1 + 500`, materializing the next 500 unhardened
derivations per batch and advancing `next_index` by 500 (so the final index
is `n + 500 * k` for the least `k` reaching `mu + 1 + 500`); exactly when at
least one batch ran (`d = true`, equivalently the initial index was below
`mu + 1 + 500`) the committed call appends a `DerivationIndex{next_index}`
event after the `CoinsUpdated` event. -/
theorem c3_incremental_sync_derive_loop (C : CryptoModel) (o : SyncOracle)
    (pk : Nat) (w : World) (cs : List CoinStateR) (tx1 txf : WalletDb)
    (mu n' : Nat) (d : Bool)
    (hup : upsertLoop o w.db cs = .ok tx1)
    (hmu : o.maxUsedOf tx1 = some mu)
    (hrun : deriveLoop C o pk tx1 (o.derivationIndexOf tx1) (mu + 1) =
      .ok (txf, n', d))
    (hcommit : o.commitFails = false) :
    (d = true ↔ o.derivationIndexOf tx1 < mu + 1 + 500) ∧
    mu + 1 + 500 ≤ n' ∧
    (∃ k, n' = o.derivationIndexOf tx1 + 500 * k ∧
      (0 < k → o.derivationIndexOf tx1 + 500 * (k - 1) < mu + 1 + 500) ∧
      txf.derivations = tx1.derivations ++
        (List.range' (o.derivationIndexOf tx1) (500 * k)).map (derivRow C pk)) ∧
    incremental_sync C o pk w cs true =
      ({ db := txf,
         events := (w.events ++ [SyncEvent.coinsUpdated cs]) ++
           (if d then [SyncEvent.derivationIndex n'] else []) }, none) := by
  obtain ⟨hiff, hle, k, hk1, hk2, hk3, _, _, _⟩ :=
    deriveLoop_spec C o pk (mu + 1 + 500 - o.derivationIndexOf tx1) tx1
      (o.derivationIndexOf tx1) (mu + 1) txf n' d (by omega) hrun
  refine ⟨hiff, hle, ⟨k, hk1, hk2, hk3⟩, ?_⟩
  simp only [incremental_sync, hup]
  rw [hmu]
  simp only [Option.elim, if_pos rfl]
  rw [hrun]
  simp [hcommit]

/-- C2: in every iteration of the frontier extension loop with current start
index `start` (the body of `frontier_loop` runs `frontierPersistAndEmit`,
then one `sync_puzzle_hashes` batch), the program computes, for each
`index ∈ [start, start + 500)`,
`synthetic_key = derive_synthetic (derive_unhardened intermediate_pk index)`
and `puzzle_hash = curry_tree_hash synthetic_key`, persists all 500
resulting derivations with `hardened = false` inside a single transaction —
nothing else in the database changes — and then emits a `DerivationIndex`
progress event carrying `next_index = start + 500` (provided the insertions
and the commit succeed, which the hypotheses state). -/
theorem c2_frontier_iteration_derives_and_emits (C : CryptoModel)
    (o : SyncOracle) (pk : Nat) (w : World) (start : Nat)
    (hf : ∀ i, o.insertDerivationFails i = false)
    (hc : o.commitFails = false) :
    ∃ w', frontierPersistAndEmit C o pk w start = .ok (w', start + 500) ∧
      w'.db.derivations = w.db.derivations ++
        (List.range' start 500).map (fun index =>
          { index := index, hardened := false,
            syntheticKey := C.deriveSynthetic (C.deriveUnhardened pk index),
            puzzleHash :=
              C.curryTreeHash (C.deriveSynthetic (C.deriveUnhardened pk index)) }) ∧
      w'.db.coinRows = w.db.coinRows ∧ w'.db.puzzles = w.db.puzzles ∧
      w'.db.peak = w.db.peak ∧
      w'.events = w.events ++ [SyncEvent.derivationIndex (start + 500)] := by
  have hmap : (List.range' start 500).map (fun index =>
      ({ index := index, hardened := false,
         syntheticKey := C.deriveSynthetic (C.deriveUnhardened pk index),
         puzzleHash :=
           C.curryTreeHash (C.deriveSynthetic (C.deriveUnhardened pk index)) } :
        DerivationRow)) = frontierDerive C pk start := by
    simp only [frontierDerive]
    exact List.map_congr_left fun i _ => by simp [derivRow]
  have hlen : (frontierDerive C pk start).length = 500 := by
    simp [frontierDerive]
  refine ⟨({ db := { w.db with derivations := w.db.derivations ++ frontierDerive C pk start },
             events := w.events ++ [SyncEvent.derivationIndex (start + 500)] } : World),
    ?_, ?_, rfl, rfl, rfl, rfl⟩
  · simp only [frontierPersistAndEmit, hlen, insertDerivList_noFail o hf, hc,
      Bool.false_eq_true, if_false, ite_false]
  · simp only [hmap]

/-- C7: whenever `sync_wallet` returns success, the persisted peak equals the
`(height, header_hash)` pair read from the shared `PeerState` for this peer
(`o.peakOf`, the single read at `wallet_sync.rs` line 121), or the peak row
is exactly what it was before the call if no peak was recorded for that
peer — no other step of `sync_wallet` writes the peak row. -/
theorem c7_peak_persisted (C : CryptoModel) (o : SyncOracle)
    (fuel pageFuel pk genesis : Nat) (w w' : World)
    (h : sync_wallet C o fuel pageFuel pk genesis w = some (.ok w')) :
    w'.db.peak = (match o.peakOf with
      | some p => some p
      | none => w.db.peak) := by
  simp only [sync_wallet] at h
  split at h
  · exact absurd h (by simp)
  · rename_i w1 heq1
    split at h
    · exact absurd h (by simp)
    · exact absurd h (by simp)
    · rename_i w2 k2 dm2 heq2
      split at h
      · exact absurd h (by simp)
      · exact absurd h (by simp)
      · rename_i w3 k3 heq3
        have hp1 : w1.db.peak = w.db.peak := by
          have := sync_coin_ids_go_peak C o pk (o.coinIds.toChunks 10000) w 0 w1 none
          exact this (by simpa [sync_coin_ids] using heq1) rfl
        have hp2 : w2.db.peak = w1.db.peak := by
          exact sync_batches_go_peak C o pk pageFuel _ _ _ 0 w1 _ w2 k2 dm2 heq2
        have hp3 : w3.db.peak = w2.db.peak := by
          have := frontier_loop_peak C o pk genesis pageFuel fuel
            (w2, k2, (w.db.derivations.map fun r => r.puzzleHash).length) dm2 w3 k3 heq3
          exact this
        split at h
        · rename_i height header_hash hpk
          split at h
          · exact absurd h (by simp)
          · simp only [Option.some.injEq, Except.ok.injEq] at h
            rw [← h, hpk]
        · rename_i hpk
          simp only [Option.some.injEq, Except.ok.injEq] at h
          rw [← h, hpk]
          exact (hp3.trans hp2).trans hp1

/-- C8: the derivation-frontier loop terminates at the first iteration whose
`sync_puzzle_hashes` call over the 500 newly derived puzzle hashes discovers
no coin states: if the `(j+1)`-th body execution reports `derive_more = false`
(every earlier one having reported `true`), then `frontier_loop` returns that
iteration's world for ANY fuel larger than `j` — in particular the loop never
iterates past a full 500-batch that discovered no new coins. -/
theorem c8_frontier_loop_terminates (C : CryptoModel) (o : SyncOracle)
    (pk genesis pageFuel : Nat) :
    ∀ (j fuel : Nat) (st st' : World × Nat × Nat),
      frontierRun C o pk genesis pageFuel j st = some (.ok (st', false)) →
      j < fuel →
      frontier_loop C o pk genesis pageFuel fuel st true =
        some (.ok (st'.1, st'.2.1)) := by
  intro j
  induction j with
  | zero =>
    intro fuel st st' hrun hj
    cases fuel with
    | zero => omega
    | succ fuel =>
      simp only [frontierRun] at hrun
      simp only [frontier_loop, hrun]
      obtain ⟨w2, k2, s2⟩ := st'
      cases fuel <;> rfl
  | succ j ih =>
    intro fuel st st' hrun hj
    simp only [frontierRun] at hrun
    cases hstep : frontierStep C o pk genesis pageFuel st with
    | none => rw [hstep] at hrun; exact absurd hrun (by simp)
    | some r =>
      rw [hstep] at hrun
      cases r with
      | error e => exact absurd hrun (by simp)
      | ok pr =>
        obtain ⟨st1, found⟩ := pr
        cases found with
        | false => exact absurd hrun (by simp)
        | true =>
          simp only at hrun
          cases fuel with
          | zero => omega
          | succ fuel =>
            simp only [frontier_loop, hstep]
            exact ih fuel st1 st' hrun (by omega)

theorem dropWaiters_getElem (slots : List (Nat × Nat)) :
    ∀ (ws : List WaiterState) (j i : Nat),
      ws[i]? = some WaiterState.pending →
      (slots.any fun s => s.2 == j + i) = true →
      (dropWaiters slots j ws)[i]? = some WaiterState.dropped := by
  intro ws
  induction ws with
  | nil => intro j i hp _; simp at hp
  | cons wst rest ih =>
    intro j i hp hany
    cases i with
    | zero =>
      simp only [List.getElem?_cons_zero, Option.some.injEq] at hp
      subst hp
      simp only [Nat.add_zero] at hany
      simp [dropWaiters, hany]
    | succ i =>
      simp only [List.getElem?_cons_succ] at hp
      have hany' : (slots.any fun s => s.2 == (j + 1) + i) = true := by
        have he : j + 1 + i = j + (i + 1) := by omega
        rw [he]
        exact hany
      simpa [dropWaiters] using ih (j + 1) i hp hany'

/-- C4 (amended): when the inbound task receives a Close frame it breaks its
read loop and terminates, releasing only its own `Arc` reference to the
`RequestMap`; while a `Peer` handle is alive the map — and every parked
waiter — survives unchanged, and it is the drop of the last `Peer` handle
(`PeerInner::drop`) that drops the `RequestMap` and makes every pending
waiter with a live slot resolve with `PeerDropped`. -/
theorem c4_close_frame_amended (p : PeerLife) (i : Nat)
    (hinner : p.innerRef = true)
    (hslot : (p.slots.any fun s => s.2 == i) = true)
    (hpend : p.waiters[i]? = some WaiterState.pending) :
    (taskExitOnClose p).waiters = p.waiters ∧
    (taskExitOnClose p).slots = p.slots ∧
    mapAlive (taskExitOnClose p) = true ∧
    (dropPeerHandle (taskExitOnClose p)).waiters[i]? = some WaiterState.dropped := by
  have hclose : taskExitOnClose p = { p with taskRef := false } := by
    simp [taskExitOnClose, mapAlive, hinner]
  refine ⟨by rw [hclose], by rw [hclose], by simp [hclose, mapAlive, hinner], ?_⟩
  rw [hclose]
  simp only [dropPeerHandle, dropRequestMap]
  exact dropWaiters_getElem p.slots p.waiters 0 i hpend (by simpa using hslot)

/-- C5 (amended): for every binary frame that decodes to a `Message` with no
id, the inbound task forwards the message to the unsolicited-event channel;
the task fails with `EventNotSent` exactly when that channel is closed (the
receiver was dropped); when the channel is full but open, the bounded
`send(..).await` suspends until capacity frees up instead of failing. -/
theorem c5_unsolicited_forwarding_amended (decode : List Nat → Option MessageM)
    (st : InboundState) (bytes : List Nat) (m : MessageM)
    (hdec : decode bytes = some m) (hid : m.id = none) :
    (inboundStep decode st (WsFrame.binary bytes) =
        StepResult.failed st ClientErr.eventNotSent ↔ st.channel.closed = true) ∧
    (st.channel.closed = false → st.channel.buffer.length < st.channel.capacity →
      inboundStep decode st (WsFrame.binary bytes) =
        StepResult.running { st with channel :=
          { st.channel with buffer := st.channel.buffer ++ [m] } } []) ∧
    (st.channel.closed = false → ¬ st.channel.buffer.length < st.channel.capacity →
      inboundStep decode st (WsFrame.binary bytes) = StepResult.blocked st) := by
  simp only [inboundStep, hdec, hid, sendEvent]
  by_cases hcl : st.channel.closed
  · simp [hcl]
  · simp only [hcl, Bool.false_eq_true, if_false, ite_false]
    by_cases hfull : st.channel.buffer.length < st.channel.capacity
    · simp [hfull]
    · simp [hfull]

/-- C6: for every binary frame that decodes to a `Message` whose id is
present but has no live slot in the `RequestMap`, the inbound task — a total
function in this model, so it cannot panic — terminates with the error
`UnexpectedMessage` carrying that message's kind. -/
theorem c6_untracked_id_unexpected_message (decode : List Nat → Option MessageM)
    (st : InboundState) (bytes : List Nat) (m : MessageM) (id : Nat)
    (hdec : decode bytes = some m) (hid : m.id = some id)
    (hslot : st.slots.lookup id = none) :
    inboundStep decode st (WsFrame.binary bytes) =
      StepResult.failed st (ClientErr.unexpectedMessage m.msgType) := by
  simp only [inboundStep, hdec, hid, hslot]

/-- C9: in `request_raw`, the response slot is inserted into the `RequestMap`
strictly before the framed request is written to the send half (every trace
state with the frame written has the slot live, and the state right after the
insert has the slot live with the frame not yet written), and the send-half
mutex is held only for the duration of the write — never while awaiting the
response (the awaiting state holds no lock, and every locked state is not
awaiting); hence a correlated response cannot reach the demultiplexer before
its slot exists, and since the lock is free while a call awaits, further
requests can be outstanding concurrently. -/
theorem c9_request_raw_ordering :
    (∀ s ∈ requestRawTrace,
      (s.frameWritten = true → s.slotLive = true) ∧
      (s.awaiting = true → s.sinkLocked = false) ∧
      (s.sinkLocked = true → s.awaiting = false)) ∧
    ({ slotLive := true, sinkLocked := false, frameWritten := false,
       awaiting := false } : RRState) ∈ requestRawTrace := by
  decide

/-- C10: `filter_unlocked_coins` returns exactly the subsequence of the
requested coin ids whose coins are not locked in the wallet database,
preserving the request order (the result is the order-preserving `filter` of
the request list, a sublist of it), and it fails with no partial result if
any requested coin id fails to parse. -/
theorem c10_filter_unlocked_coins_spec (parse : String → Option Bytes32)
    (locked : Bytes32 → Bool) (ids : List String) :
    ((∀ s ∈ ids, (parse s).isSome = true) →
      filter_unlocked_coins parse locked ids =
        .ok (ids.filter fun s => !((parse s).map locked).getD true) ∧
      (ids.filter fun s => !((parse s).map locked).getD true).Sublist ids) ∧
    ((∃ s ∈ ids, parse s = none) →
      filter_unlocked_coins parse locked ids = .error WcErr.parseError) := by
  constructor
  · intro hall
    refine ⟨?_, List.filter_sublist ids⟩
    induction ids with
    | nil => simp [filter_unlocked_coins]
    | cons c rest ih =>
      have hc := hall c (by simp)
      obtain ⟨cid, hcid⟩ := Option.isSome_iff_exists.mp hc
      have hrest := ih (fun s hs => hall s (by simp [hs]))
      simp only [filter_unlocked_coins, hcid]
      by_cases hl : locked cid
      · simp [hl, hrest, List.filter_cons, hcid]
      · simp [hl, hrest, List.filter_cons, hcid]
  · induction ids with
    | nil => intro hex; simp at hex
    | cons c rest ih =>
      intro hex
      simp only [filter_unlocked_coins]
      cases hcid : parse c with
      | none => rfl
      | some cid =>
        have hex' : ∃ s ∈ rest, parse s = none := by
          obtain ⟨s, hs, hsnone⟩ := hex
          rcases List.mem_cons.mp hs with hs | hs
          · subst hs; rw [hcid] at hsnone; exact absurd hsnone (by simp)
          · exact ⟨s, hs, hsnone⟩
        have hres := ih hex'
        by_cases hl : locked cid
        · simp [hl, hres]
        · simp [hl, hres]

theorem toChunks_go_all {α : Type} (n : Nat) :
    ∀ (ys : List α) (acc₁ : Array α) (acc₂ : Array (List α)),
      acc₁.size + ys.length ≤ n →
      List.toChunks.go n ys acc₁ acc₂ = (acc₂.push (acc₁.toList ++ ys)).toList := by
  intro ys
  induction ys with
  | nil => intro acc₁ acc₂ h; simp [List.toChunks.go]
  | cons y ys ih =>
    intro acc₁ acc₂ h
    simp only [List.length_cons] at h
    have hne : (acc₁.size == n) = false := by
      simp only [beq_eq_false_iff_ne, ne_eq]
      omega
    simp only [List.toChunks.go, hne, Bool.false_eq_true, if_false, ite_false]
    rw [ih (acc₁.push y) acc₂ (by simp only [Array.size_push]; omega)]
    simp [Array.push_toList, List.append_assoc]

theorem toChunks_single_of_length {α : Type} (n : Nat) (l : List α)
    (hne : l ≠ []) (h : l.length ≤ n) : l.toChunks n = [l] := by
  match l, hne with
  | x :: xs, _ =>
    simp only [List.length_cons] at h
    obtain ⟨m, rfl⟩ : ∃ m, n = m + 1 := ⟨n - 1, by omega⟩
    simp only [List.toChunks]
    rw [toChunks_go_all (m + 1) xs #[x] #[] (by simp; omega)]
    rfl

/-! ### Counterexamples and evaluation witnesses -/

/-- C1 witness: with every upsert failing, `incremental_sync` on one coin
state returns the database error and the world — rows and emitted events —
is exactly the input world. -/
theorem c1_incremental_sync_atomic_witness :
    (incremental_sync cW oFailW 0 w0 [csW] true).2 = some SyncErr.database ∧
    (incremental_sync cW oFailW 0 w0 [csW] true).1 = w0 :=
  ⟨rfl, c1_incremental_sync_atomic cW oFailW 0 w0 [csW] true SyncErr.database rfl⟩

/-- C2 witness: one frontier iteration from start index 0 on the empty world,
with the concrete crypto model `cW` and oracle `oW`. -/
theorem c2_frontier_iteration_derives_and_emits_witness :
    ∃ w', frontierPersistAndEmit cW oW 3 w0 0 = .ok (w', 0 + 500) ∧
      w'.db.derivations = w0.db.derivations ++
        (List.range' 0 500).map (fun index =>
          { index := index, hardened := false,
            syntheticKey := cW.deriveSynthetic (cW.deriveUnhardened 3 index),
            puzzleHash :=
              cW.curryTreeHash (cW.deriveSynthetic (cW.deriveUnhardened 3 index)) }) ∧
      w'.db.coinRows = w0.db.coinRows ∧ w'.db.puzzles = w0.db.puzzles ∧
      w'.db.peak = w0.db.peak ∧
      w'.events = w0.events ++ [SyncEvent.derivationIndex (0 + 500)] :=
  c2_frontier_iteration_derives_and_emits cW oW 3 w0 0 (fun _ => rfl) rfl

/-- C3 witness: with `derivation_index(false)` reading 1000 and
`max_used_derivation_index(false)` reading `some 0`, the loop bound is
`0 + 1 + 500 = 501 ≤ 1000`, so no batch runs, `next_index` stays 1000, and
the committed call emits only the `CoinsUpdated` event. -/
theorem c3_incremental_sync_derive_loop_witness :
    ((false = true ↔ oW.derivationIndexOf w0.db < 0 + 1 + 500) ∧
     0 + 1 + 500 ≤ 1000 ∧
     (∃ k, 1000 = oW.derivationIndexOf w0.db + 500 * k ∧
       (0 < k → oW.derivationIndexOf w0.db + 500 * (k - 1) < 0 + 1 + 500) ∧
       w0.db.derivations = w0.db.derivations ++
         (List.range' (oW.derivationIndexOf w0.db) (500 * k)).map (derivRow cW 0)) ∧
     incremental_sync cW oW 0 w0 [] true =
       ({ db := w0.db,
          events := (w0.events ++ [SyncEvent.coinsUpdated []]) ++
            (if false then [SyncEvent.derivationIndex 1000] else []) }, none)) :=
  c3_incremental_sync_derive_loop cW oW 0 w0 [] w0.db w0.db 0 1000 false rfl rfl
    (by rw [deriveLoop.eq_def]; rfl) rfl

/-- C4 counterexample: the claim says a Close frame drops the `RequestMap`
and resolves every parked waiter with `PeerDropped`; on the concrete peer
`p4ex` (one parked waiter, the `Peer` handle still alive) the task exit
caused by the Close frame leaves the waiter pending — not dropped — and the
map still allocated, because `PeerInner` still holds its `Arc` reference
(`handle_inbound_messages` merely breaks its loop on Close and
`Peer::from_websocket` gave the map to both the task and `PeerInner`). -/
theorem c4_close_frame_counterexample :
    (taskExitOnClose p4ex).waiters = [WaiterState.pending] ∧
    mapAlive (taskExitOnClose p4ex) = true ∧
    WaiterState.pending ≠ WaiterState.dropped := by
  decide

/-- C4 witness: on `p4ex`, after the Close-frame task exit the waiter is
still pending, and dropping the `Peer` handle then resolves it with
`PeerDropped`. -/
theorem c4_close_frame_witness :
    p4ex.innerRef = true ∧ (p4ex.slots.any fun s => s.2 == 0) = true ∧
    p4ex.waiters[0]? = some WaiterState.pending ∧
    ((taskExitOnClose p4ex).waiters = p4ex.waiters ∧
     (taskExitOnClose p4ex).slots = p4ex.slots ∧
     mapAlive (taskExitOnClose p4ex) = true ∧
     (dropPeerHandle (taskExitOnClose p4ex)).waiters[0]? =
       some WaiterState.dropped) :=
  ⟨rfl, rfl, rfl, c4_close_frame_amended p4ex 0 rfl rfl rfl⟩

/-- C5 counterexample: the claim says a full unsolicited-event channel fails
the task with `EventNotSent`; on the concrete full-but-open channel of
`stFullW`, handling an id-less binary frame suspends the task
(`StepResult.blocked`, the tokio bounded `send(..).await` waiting for
capacity) and does not fail it with `EventNotSent`. -/
theorem c5_unsolicited_forwarding_counterexample :
    inboundStep decodeW stFullW (WsFrame.binary []) = StepResult.blocked stFullW ∧
    StepResult.blocked stFullW ≠
      StepResult.failed stFullW ClientErr.eventNotSent := by
  constructor
  · rfl
  · decide

/-- C5 witness: on the open non-full channel of `stOpenW`, the id-less
message `mW` is appended to the channel and the task keeps running; the
failure characterization holds. -/
theorem c5_unsolicited_forwarding_witness :
    decodeW [] = some mW ∧ mW.id = none ∧
    ((inboundStep decodeW stOpenW (WsFrame.binary []) =
        StepResult.failed stOpenW ClientErr.eventNotSent ↔
        stOpenW.channel.closed = true) ∧
     (stOpenW.channel.closed = false →
      stOpenW.channel.buffer.length < stOpenW.channel.capacity →
      inboundStep decodeW stOpenW (WsFrame.binary []) =
        StepResult.running { stOpenW with channel :=
          { stOpenW.channel with buffer := stOpenW.channel.buffer ++ [mW] } } []) ∧
     (stOpenW.channel.closed = false →
      ¬ stOpenW.channel.buffer.length < stOpenW.channel.capacity →
      inboundStep decodeW stOpenW (WsFrame.binary []) =
        StepResult.blocked stOpenW)) :=
  ⟨rfl, rfl, c5_unsolicited_forwarding_amended decodeW stOpenW [] mW rfl rfl⟩

/-- C6 witness: the message `mIdW` carries id 9, no slot is live for 9, and
the inbound task fails with `UnexpectedMessage` carrying the message's kind. -/
theorem c6_untracked_id_unexpected_message_witness :
    decodeIdW [] = some mIdW ∧ mIdW.id = some 9 ∧
    stOpenW.slots.lookup 9 = none ∧
    inboundStep decodeIdW stOpenW (WsFrame.binary []) =
      StepResult.failed stOpenW (ClientErr.unexpectedMessage mIdW.msgType) :=
  ⟨rfl, rfl, rfl,
    c6_untracked_id_unexpected_message decodeIdW stOpenW [] mIdW 9 rfl rfl rfl⟩

/-- C7 witness: a full `sync_wallet` run on `w7` (one known derivation, no
coins, immediate pagination finish) succeeds and persists exactly the shared
peer-state peak `(5, 9)`. -/
theorem c7_peak_persisted_witness :
    sync_wallet cW oW 1 1 0 0 w7 = some (.ok w7f) ∧
    w7f.db.peak = (match oW.peakOf with
      | some p => some p
      | none => w7.db.peak) :=
  ⟨rfl, c7_peak_persisted cW oW 1 1 0 0 w7 w7f rfl⟩

/-- C8 witness: with the oracle `oW` the very first frontier iteration
discovers no coins, and the loop with fuel 1 returns that iteration's
world. -/
theorem c8_frontier_loop_terminates_witness :
    frontierRun cW oW 3 0 1 0 (w0, 0, 0) = some (.ok (c8St, false)) ∧
    0 < 1 ∧
    frontier_loop cW oW 3 0 1 1 (w0, 0, 0) true = some (.ok (c8St.1, c8St.2.1)) := by
  have hlen : (frontierDerive cW 3 0).length = 500 := by
    simp [frontierDerive]
  have hpe : frontierPersistAndEmit cW oW 3 w0 0 = .ok (c8St.1, 500) := by
    simp only [frontierPersistAndEmit, hlen, insertDerivList_noFail oW (fun _ => rfl)]
    simp [c8St, w0, oW]
  have hchunk : (((frontierDerive cW 3 0).map (fun r => r.puzzleHash))).toChunks 500 =
      [((frontierDerive cW 3 0).map (fun r => r.puzzleHash))] := by
    refine toChunks_single_of_length 500 _ ?_ (by simp [frontierDerive])
    simp [frontierDerive]
  have hrun : frontierRun cW oW 3 0 1 0 (w0, 0, 0) = some (.ok (c8St, false)) := by
    simp only [frontierRun, frontierStep, hpe, hchunk]
    simp [frontierStepGo, sync_batches_go, sync_puzzle_hashes, sync_puzzle_hashes_go,
      oW, c8St]
  exact ⟨hrun, Nat.zero_lt_one,
    c8_frontier_loop_terminates cW oW 3 0 1 0 1 (w0, 0, 0) c8St hrun Nat.zero_lt_one⟩
